import Mathlib

/-!
Verification of the Black-Scholes pricing engine
(src/backend/services/black_scholes.py).

The pricer `calculate_option_prices` and the grid generator
`generate_heatmap_data` are embedded shallowly over the real numbers:
scipy's `norm.cdf` becomes an integral of the standard normal density,
numpy's `exp`, `log`, `sqrt`, `linspace` become their Mathlib
counterparts, python's `round` (half to even) becomes `pyRound`, and the
`raise ValueError` / `except` control flow becomes an `Except`-valued
function inspected by the grid loop.
-/

noncomputable section

open MeasureTheory Set

namespace BlackScholes

/-- Density of the standard normal distribution, as used by scipy
`norm.pdf`. -/
def normPdf (t : ℝ) : ℝ := Real.exp (-t ^ 2 / 2) / Real.sqrt (2 * Real.pi)

/-- Cumulative distribution function of the standard normal distribution,
as used by scipy `norm.cdf`. -/
def normCdf (x : ℝ) : ℝ := ∫ t in Iic x, normPdf t

/-- Rounding of a real to an integer, halves to the nearest even integer:
the tie-breaking convention of python's builtin `round`. -/
def roundHalfEven (x : ℝ) : ℤ :=
  if Int.fract x = 1 / 2 then 2 * round (x / 2) else round x

/-- Python's `round(x, n)`: round to `n` decimal digits, halves to even. -/
def pyRound (n : ℕ) (x : ℝ) : ℝ := (roundHalfEven (x * 10 ^ n) : ℝ) / 10 ^ n

/-- The intermediate `d1` of `calculate_option_prices`. -/
def d1 (S K T sigma r q : ℝ) : ℝ :=
  (Real.log (S / K) + (r - q + 0.5 * sigma ^ 2) * T) / (sigma * Real.sqrt T)

/-- The intermediate `d2 = d1 - sigma * sqrt(T)` of
`calculate_option_prices`. -/
def d2 (S K T sigma r q : ℝ) : ℝ :=
  d1 S K T sigma r q - sigma * Real.sqrt T

/-- The call price before rounding, as computed by
`calculate_option_prices`. -/
def callPriceRaw (S K T sigma r q : ℝ) : ℝ :=
  S * Real.exp (-q * T) * normCdf (d1 S K T sigma r q) -
    K * Real.exp (-r * T) * normCdf (d2 S K T sigma r q)

/-- The put price before rounding, as computed by
`calculate_option_prices`. -/
def putPriceRaw (S K T sigma r q : ℝ) : ℝ :=
  K * Real.exp (-r * T) * normCdf (-d2 S K T sigma r q) -
    S * Real.exp (-q * T) * normCdf (-d1 S K T sigma r q)

/-- The call delta before rounding, as computed by
`calculate_option_prices`. -/
def callDeltaRaw (S K T sigma r q : ℝ) : ℝ :=
  Real.exp (-q * T) * normCdf (d1 S K T sigma r q)

/-- The put delta before rounding, as computed by
`calculate_option_prices`. -/
def putDeltaRaw (S K T sigma r q : ℝ) : ℝ :=
  -(Real.exp (-q * T) * normCdf (-d1 S K T sigma r q))

/-- The gamma before rounding, as computed by `calculate_option_prices`. -/
def gammaRaw (S K T sigma r q : ℝ) : ℝ :=
  normPdf (d1 S K T sigma r q) / (S * sigma * Real.sqrt T)

/-- The record returned by `calculate_option_prices`. -/
structure PricingResult where
  call_price : ℝ
  put_price : ℝ
  call_delta : ℝ
  put_delta : ℝ
  gamma : ℝ

/-- BlackScholesEngine.calculate_option_prices: validates the inputs
(`raise ValueError` becomes `Except.error`), then returns the rounded
Black-Scholes-Merton prices and Greeks with continuous dividend yield. -/
def calculate_option_prices (S K T sigma r q : ℝ) : Except String PricingResult :=
  if S ≤ 0 ∨ K ≤ 0 ∨ T ≤ 0 ∨ sigma ≤ 0 then
    Except.error "current_price, strike_price, time_to_maturity, and volatility must be positive"
  else if ¬(0 ≤ r ∧ r ≤ 1) ∨ ¬(0 ≤ q ∧ q ≤ 1) then
    Except.error "risk_free_rate and dividend_yield must be between 0 and 1"
  else
    Except.ok
      { call_price := pyRound 2 (callPriceRaw S K T sigma r q)
        put_price := pyRound 2 (putPriceRaw S K T sigma r q)
        call_delta := pyRound 4 (callDeltaRaw S K T sigma r q)
        put_delta := pyRound 4 (putDeltaRaw S K T sigma r q)
        gamma := pyRound 4 (gammaRaw S K T sigma r q) }

/-- The request model whose fields `generate_heatmap_data` reads
(models/requests.py CalculationRequest). -/
structure CalculationRequest where
  current_price : ℝ
  strike_price : ℝ
  time_to_maturity : ℝ
  volatility : ℝ
  risk_free_rate : ℝ
  dividend_yield : ℝ

/-- Python `sorted` on a two-element tuple. -/
def sortPair (p : ℝ × ℝ) : ℝ × ℝ := (min p.1 p.2, max p.1 p.2)

/-- Degenerate-range widening for the spot axis in
`generate_heatmap_data`. -/
def widenSpot (p : ℝ × ℝ) : ℝ × ℝ :=
  if p.1 = p.2 then (max 0.1 (p.1 * 0.9), p.2 * 1.1) else p

/-- Degenerate-range widening for the volatility axis in
`generate_heatmap_data` (max volatility capped at 200 percent). -/
def widenVol (p : ℝ × ℝ) : ℝ × ℝ :=
  if p.1 = p.2 then (max 0.01 (p.1 * 0.5), min 2.0 (p.2 * 1.5)) else p

/-- numpy.linspace: `n` evenly spaced values from `a` to `b`, both
endpoints included. -/
def linspace (a b : ℝ) (n : ℕ) : List ℝ :=
  (List.range n).map (fun i : ℕ => a + (i : ℝ) * (b - a) / ((n : ℝ) - 1))

/-- The spot axis of `generate_heatmap_data`: sort, widen if degenerate,
then linspace. -/
def gridSpots (p : ℝ × ℝ) (n : ℕ) : List ℝ :=
  linspace (widenSpot (sortPair p)).1 (widenSpot (sortPair p)).2 n

/-- The volatility axis of `generate_heatmap_data`: sort, widen if
degenerate, then linspace. -/
def gridVols (p : ℝ × ℝ) (n : ℕ) : List ℝ :=
  linspace (widenVol (sortPair p)).1 (widenVol (sortPair p)).2 n

/-- One cell of the heatmap grid: the `spot <= 0 or vol <= 0` guard, then
the pricer, whose `ValueError` is caught and replaced by the undiscounted
intrinsic values. Returns (call cell, put cell). -/
def cellPair (K T r q spot vol : ℝ) : ℝ × ℝ :=
  if spot ≤ 0 ∨ vol ≤ 0 then
    (0, max 0 (K * Real.exp (-r * T) - spot))
  else
    match calculate_option_prices spot K T vol r q with
    | Except.ok res => (res.call_price, res.put_price)
    | Except.error _ => (max 0 (spot - K), max 0 (K - spot))

/-- The record returned by `generate_heatmap_data`. -/
structure GridResult where
  call_prices : List (List ℝ)
  put_prices : List (List ℝ)
  spot_values : List ℝ
  volatility_values : List ℝ

/-- BlackScholesEngine.generate_heatmap_data: sweep the pricer over a
spot-by-volatility grid, holding strike, maturity, rate and dividend
fixed from the request; cells degrade to fallback values instead of
failing, axis values are rounded to 2 decimals for the response. -/
def generate_heatmap_data (base : CalculationRequest)
    (spot_range volatility_range : ℝ × ℝ) (grid_size : ℕ) : GridResult :=
  let K := base.strike_price
  let T := base.time_to_maturity
  let r := base.risk_free_rate
  let q := base.dividend_yield
  let spots := gridSpots spot_range grid_size
  let vols := gridVols volatility_range grid_size
  { call_prices := spots.map (fun s => vols.map (fun v => (cellPair K T r q s v).1))
    put_prices := spots.map (fun s => vols.map (fun v => (cellPair K T r q s v).2))
    spot_values := spots.map (fun x => pyRound 2 x)
    volatility_values := vols.map (fun x => pyRound 2 x) }

/-! Properties of round-half-to-even and of `pyRound`. -/

/-- A real whose fractional part is a half sits half way above its floor. -/
lemma fract_half_eq {x : ℝ} (h : Int.fract x = 1 / 2) : x = (⌊x⌋ : ℝ) + 1 / 2 := by
  have h0 := Int.floor_add_fract x
  rw [h] at h0
  linarith

/-- At a tie, round-half-to-even lands on the floor or one above it. -/
lemma roundHalfEven_tie (x : ℝ) (h : Int.fract x = 1 / 2) :
    roundHalfEven x = ⌊x⌋ ∨ roundHalfEven x = ⌊x⌋ + 1 := by
  have hx := fract_half_eq h
  rw [roundHalfEven, if_pos h]
  rcases Int.even_or_odd ⌊x⌋ with ⟨k, hk⟩ | ⟨k, hk⟩
  · left
    have hx2 : x / 2 + 1 / 2 = (k : ℝ) + 3 / 4 := by
      rw [hx, hk]; push_cast; ring
    have h34 : ⌊(3 / 4 : ℝ)⌋ = 0 := Int.floor_eq_iff.mpr (by norm_num)
    rw [round_eq, hx2, Int.floor_int_add, h34, hk]
    ring
  · right
    have hx2 : x / 2 + 1 / 2 = (k : ℝ) + 5 / 4 := by
      rw [hx, hk]; push_cast; ring
    have h54 : ⌊(5 / 4 : ℝ)⌋ = 1 := Int.floor_eq_iff.mpr (by norm_num)
    rw [round_eq, hx2, Int.floor_int_add, h54, hk]
    ring

/-- Round-half-to-even never overtakes an integer upper bound. -/
lemma roundHalfEven_le {x : ℝ} {n : ℤ} (h : x ≤ (n : ℝ)) : roundHalfEven x ≤ n := by
  by_cases htie : Int.fract x = 1 / 2
  · have hx := fract_half_eq htie
    have hfn : ⌊x⌋ < n := by
      have h2 : (⌊x⌋ : ℝ) < n := by rw [hx] at h; linarith
      exact_mod_cast h2
    rcases roundHalfEven_tie x htie with h1 | h1 <;> rw [h1] <;> omega
  · rw [roundHalfEven, if_neg htie, round_eq]
    have h12 : ⌊(1 / 2 : ℝ)⌋ = 0 := Int.floor_eq_iff.mpr (by norm_num)
    have h0 : ⌊x + 1 / 2⌋ ≤ ⌊(n : ℝ) + 1 / 2⌋ := Int.floor_le_floor (by linarith)
    rwa [Int.floor_int_add, h12, add_zero] at h0

/-- Round-half-to-even never undershoots an integer lower bound. -/
lemma le_roundHalfEven {x : ℝ} {n : ℤ} (h : (n : ℝ) ≤ x) : n ≤ roundHalfEven x := by
  by_cases htie : Int.fract x = 1 / 2
  · have hx := fract_half_eq htie
    have hfn : n ≤ ⌊x⌋ := by
      by_contra hc
      push_neg at hc
      have h2 : (⌊x⌋ : ℝ) + 1 ≤ n := by exact_mod_cast hc
      rw [hx] at h
      linarith
    rcases roundHalfEven_tie x htie with h1 | h1 <;> rw [h1] <;> omega
  · rw [roundHalfEven, if_neg htie, round_eq]
    have h12 : ⌊(1 / 2 : ℝ)⌋ = 0 := Int.floor_eq_iff.mpr (by norm_num)
    have h0 : ⌊(n : ℝ) + 1 / 2⌋ ≤ ⌊x + 1 / 2⌋ := Int.floor_le_floor (by linarith)
    rwa [Int.floor_int_add, h12, add_zero] at h0

/-- Inside an open half-unit window around an integer there is no tie, and
round-half-to-even gives that integer. -/
lemma roundHalfEven_eq {x : ℝ} {n : ℤ} (h1 : (n : ℝ) - 1 / 2 < x)
    (h2 : x < (n : ℝ) + 1 / 2) : roundHalfEven x = n := by
  have htie : Int.fract x ≠ 1 / 2 := by
    intro h
    have hx := fract_half_eq h
    have a1 : ((n : ℝ) - 1 : ℝ) < (⌊x⌋ : ℝ) := by rw [hx] at h1; linarith
    have a2 : (⌊x⌋ : ℝ) < (n : ℝ) := by rw [hx] at h2; linarith
    have b1 : n - 1 < ⌊x⌋ := by exact_mod_cast a1
    have b2 : ⌊x⌋ < n := by exact_mod_cast a2
    omega
  rw [roundHalfEven, if_neg htie, round_eq]
  refine Int.floor_eq_iff.mpr ⟨by linarith, ?_⟩
  push_cast
  linarith

/-- Round-half-to-even moves a real up by at most a half. -/
lemma roundHalfEven_le_add_half (x : ℝ) : (roundHalfEven x : ℝ) ≤ x + 1 / 2 := by
  by_cases htie : Int.fract x = 1 / 2
  · have hx := fract_half_eq htie
    rcases roundHalfEven_tie x htie with h1 | h1 <;> rw [h1] <;> push_cast <;> linarith
  · rw [roundHalfEven, if_neg htie, round_eq]
    have h0 := Int.floor_le (x + 1 / 2)
    linarith

/-- Round-half-to-even moves a real down by at most a half. -/
lemma sub_half_le_roundHalfEven (x : ℝ) : x - 1 / 2 ≤ (roundHalfEven x : ℝ) := by
  by_cases htie : Int.fract x = 1 / 2
  · have hx := fract_half_eq htie
    rcases roundHalfEven_tie x htie with h1 | h1 <;> rw [h1] <;> push_cast <;> linarith
  · rw [roundHalfEven, if_neg htie, round_eq]
    have h0 := Int.lt_floor_add_one (x + 1 / 2)
    linarith

/-- Decimal rounding respects an integer upper bound. -/
lemma pyRound_le_int {k : ℕ} {x : ℝ} {n : ℤ} (h : x ≤ (n : ℝ)) :
    pyRound k x ≤ (n : ℝ) := by
  have hp : (0 : ℝ) < 10 ^ k := by positivity
  rw [pyRound, div_le_iff₀ hp]
  have h2 : x * 10 ^ k ≤ (((n * 10 ^ k : ℤ)) : ℝ) := by
    push_cast
    exact mul_le_mul_of_nonneg_right h (le_of_lt hp)
  have h3 := roundHalfEven_le h2
  calc (roundHalfEven (x * 10 ^ k) : ℝ) ≤ ((n * 10 ^ k : ℤ) : ℝ) := by exact_mod_cast h3
    _ = (n : ℝ) * 10 ^ k := by push_cast; ring

/-- Decimal rounding respects an integer lower bound. -/
lemma int_le_pyRound {k : ℕ} {x : ℝ} {n : ℤ} (h : (n : ℝ) ≤ x) :
    (n : ℝ) ≤ pyRound k x := by
  have hp : (0 : ℝ) < 10 ^ k := by positivity
  rw [pyRound, le_div_iff₀ hp]
  have h2 : (((n * 10 ^ k : ℤ)) : ℝ) ≤ x * 10 ^ k := by
    push_cast
    exact mul_le_mul_of_nonneg_right h (le_of_lt hp)
  have h3 := le_roundHalfEven h2
  calc (n : ℝ) * 10 ^ k = ((n * 10 ^ k : ℤ) : ℝ) := by push_cast; ring
    _ ≤ (roundHalfEven (x * 10 ^ k) : ℝ) := by exact_mod_cast h3

/-- Decimal rounding moves a real up by at most half an ulp. -/
lemma pyRound_le_add (k : ℕ) (x : ℝ) : pyRound k x ≤ x + 1 / (2 * 10 ^ k) := by
  have hp : (0 : ℝ) < 10 ^ k := by positivity
  rw [pyRound, div_le_iff₀ hp]
  have h0 := roundHalfEven_le_add_half (x * 10 ^ k)
  calc (roundHalfEven (x * 10 ^ k) : ℝ) ≤ x * 10 ^ k + 1 / 2 := h0
    _ = (x + 1 / (2 * 10 ^ k)) * 10 ^ k := by field_simp; ring

/-- Decimal rounding moves a real down by at most half an ulp. -/
lemma sub_le_pyRound (k : ℕ) (x : ℝ) : x - 1 / (2 * 10 ^ k) ≤ pyRound k x := by
  have hp : (0 : ℝ) < 10 ^ k := by positivity
  rw [pyRound, le_div_iff₀ hp]
  have h0 := sub_half_le_roundHalfEven (x * 10 ^ k)
  calc (x - 1 / (2 * 10 ^ k)) * 10 ^ k = x * 10 ^ k - 1 / 2 := by field_simp; ring
    _ ≤ (roundHalfEven (x * 10 ^ k) : ℝ) := h0

/-- Decimal rounding of a real strictly inside the half-ulp window of a
scaled integer yields exactly that scaled integer. -/
lemma pyRound_eq {k : ℕ} {x : ℝ} {n : ℤ} (h1 : (n : ℝ) - 1 / 2 < x * 10 ^ k)
    (h2 : x * 10 ^ k < (n : ℝ) + 1 / 2) : pyRound k x = (n : ℝ) / 10 ^ k := by
  rw [pyRound, roundHalfEven_eq h1 h2]

/-! Basic properties of the standard normal density and CDF. -/

lemma sqrt_two_pi_pos : 0 < Real.sqrt (2 * Real.pi) :=
  Real.sqrt_pos.mpr (by positivity)

lemma normPdf_nonneg (t : ℝ) : 0 ≤ normPdf t :=
  div_nonneg (Real.exp_nonneg _) (Real.sqrt_nonneg _)

lemma normPdf_even (t : ℝ) : normPdf (-t) = normPdf t := by
  simp [normPdf, neg_sq]

lemma normPdf_eq :
    normPdf = fun t => Real.exp (-(1 / 2 : ℝ) * t ^ 2) * (Real.sqrt (2 * Real.pi))⁻¹ := by
  funext t
  rw [normPdf, show -t ^ 2 / 2 = -(1 / 2 : ℝ) * t ^ 2 from by ring, div_eq_mul_inv]

lemma integrable_normPdf : Integrable normPdf := by
  rw [normPdf_eq]
  exact (integrable_exp_neg_mul_sq (by norm_num)).mul_const _

lemma integrableOn_normPdf (s : Set ℝ) : IntegrableOn normPdf s :=
  integrable_normPdf.integrableOn

lemma integral_normPdf : (∫ t, normPdf t) = 1 := by
  rw [normPdf_eq, integral_mul_right, integral_gaussian,
    show Real.pi / (1 / 2) = 2 * Real.pi from by ring]
  exact mul_inv_cancel₀ (ne_of_gt sqrt_two_pi_pos)

lemma normCdf_nonneg (x : ℝ) : 0 ≤ normCdf x :=
  setIntegral_nonneg measurableSet_Iic fun t _ => normPdf_nonneg t

/-- Reflection: the probability above x is the probability below -x. -/
lemma normCdf_add_neg (x : ℝ) : normCdf x + normCdf (-x) = 1 := by
  have h1 : normCdf (-x) = ∫ t in Ioi x, normPdf t := by
    rw [normCdf]
    have h2 : (∫ t in Iic (-x), normPdf t) = ∫ t in Iic (-x), normPdf (-t) := by
      refine setIntegral_congr_fun measurableSet_Iic fun t _ => ?_
      rw [normPdf_even]
    rw [h2, integral_comp_neg_Iic, neg_neg]
  rw [normCdf, h1,
    intervalIntegral.integral_Iic_add_Ioi (integrableOn_normPdf _) (integrableOn_normPdf _)]
  exact integral_normPdf

lemma normCdf_zero : normCdf 0 = 1 / 2 := by
  have h := normCdf_add_neg 0
  rw [neg_zero] at h
  linarith

lemma normCdf_le_one (x : ℝ) : normCdf x ≤ 1 := by
  have h := normCdf_add_neg x
  have h2 := normCdf_nonneg (-x)
  linarith

lemma normCdf_eq_add (x : ℝ) : normCdf x = 1 / 2 + ∫ t in (0 : ℝ)..x, normPdf t := by
  have h := intervalIntegral.integral_Iic_sub_Iic (integrableOn_normPdf (Iic 0))
    (integrableOn_normPdf (Iic x))
  have h0 : (∫ t in Iic (0 : ℝ), normPdf t) = 1 / 2 := normCdf_zero
  rw [normCdf]
  linarith

lemma normCdf_eq_exp_integral (x : ℝ) :
    normCdf x = 1 / 2 + (∫ t in (0 : ℝ)..x, Real.exp (-t ^ 2 / 2)) / Real.sqrt (2 * Real.pi) := by
  rw [normCdf_eq_add x]
  congr 1
  simp only [normPdf]
  rw [intervalIntegral.integral_div]

/-! Numeric bounds: Taylor brackets for the Gaussian integral on an
interval, and rational brackets for the square root of two pi. -/

lemma continuous_exp_neg_sq : Continuous fun t : ℝ => Real.exp (-t ^ 2 / 2) :=
  Real.continuous_exp.comp ((continuous_pow 2).neg.div_const 2)

lemma continuous_gauss_poly : Continuous fun t : ℝ => 1 - t ^ 2 / 2 + t ^ 4 / 8 - t ^ 6 / 48 :=
  ((continuous_const.sub ((continuous_pow 2).div_const 2)).add
    ((continuous_pow 4).div_const 8)).sub ((continuous_pow 6).div_const 48)

lemma continuous_gauss_err : Continuous fun t : ℝ => 5 * t ^ 8 / 1536 :=
  (continuous_const.mul (continuous_pow 8)).div_const 1536

/-- Degree-six Taylor polynomial of the Gaussian kernel with its
alternating-series error bound, from the exponential remainder bound. -/
lemma exp_poly_bound {t : ℝ} (h0 : 0 ≤ t) (h1 : t ≤ 1) :
    |Real.exp (-t ^ 2 / 2) - (1 - t ^ 2 / 2 + t ^ 4 / 8 - t ^ 6 / 48)| ≤ 5 * t ^ 8 / 1536 := by
  have habs : |(-t ^ 2 / 2 : ℝ)| = t ^ 2 / 2 := by
    rw [show (-t ^ 2 / 2 : ℝ) = -(t ^ 2 / 2) from by ring, abs_neg,
      abs_of_nonneg (by positivity)]
  have hx : |(-t ^ 2 / 2 : ℝ)| ≤ 1 := by
    rw [habs]
    nlinarith
  have h := Real.exp_bound hx (by norm_num : (0 : ℕ) < 4)
  have hP : (1 - t ^ 2 / 2 + t ^ 4 / 8 - t ^ 6 / 48 : ℝ) =
      ∑ m ∈ Finset.range 4, (-t ^ 2 / 2) ^ m / (Nat.factorial m) := by
    simp [Finset.sum_range_succ, Nat.factorial]
    ring
  rw [← hP] at h
  refine h.trans (le_of_eq ?_)
  rw [habs]
  push_cast
  norm_num [Nat.factorial]
  ring

/-- Interval integral of the degree-six Taylor polynomial. -/
lemma integral_gauss_poly (a : ℝ) :
    (∫ t in (0 : ℝ)..a, (1 - t ^ 2 / 2 + t ^ 4 / 8 - t ^ 6 / 48)) =
      a - a ^ 3 / 6 + a ^ 5 / 40 - a ^ 7 / 336 := by
  have key : ∀ x : ℝ, HasDerivAt (fun t : ℝ => t - t ^ 3 / 6 + t ^ 5 / 40 - t ^ 7 / 336)
      (1 - x ^ 2 / 2 + x ^ 4 / 8 - x ^ 6 / 48) x := by
    intro x
    have h1 := hasDerivAt_id x
    have h3 := (hasDerivAt_pow 3 x).div_const 6
    have h5 := (hasDerivAt_pow 5 x).div_const 40
    have h7 := (hasDerivAt_pow 7 x).div_const 336
    have h := ((h1.sub h3).add h5).sub h7
    convert h using 1
    push_cast
    ring
  have hint : IntervalIntegrable (fun t : ℝ => 1 - t ^ 2 / 2 + t ^ 4 / 8 - t ^ 6 / 48)
      volume 0 a := continuous_gauss_poly.intervalIntegrable 0 a
  rw [intervalIntegral.integral_eq_sub_of_hasDerivAt (fun x _ => key x) hint]
  norm_num

/-- Interval integral of the Taylor error bound. -/
lemma integral_gauss_err (a : ℝ) :
    (∫ t in (0 : ℝ)..a, 5 * t ^ 8 / 1536) = 5 * a ^ 9 / 13824 := by
  have key : ∀ x : ℝ, HasDerivAt (fun t : ℝ => 5 * t ^ 9 / 13824) (5 * x ^ 8 / 1536) x := by
    intro x
    have h9 := ((hasDerivAt_pow 9 x).const_mul (5 : ℝ)).div_const 13824
    convert h9 using 1
    push_cast
    ring
  have hint : IntervalIntegrable (fun t : ℝ => 5 * t ^ 8 / 1536) volume 0 a :=
    continuous_gauss_err.intervalIntegrable 0 a
  rw [intervalIntegral.integral_eq_sub_of_hasDerivAt (fun x _ => key x) hint]
  norm_num

/-- Lower Taylor bracket for the Gaussian integral on [0, a]. -/
lemma gauss_integral_lb {a : ℝ} (h0 : 0 ≤ a) (h1 : a ≤ 1) :
    a - a ^ 3 / 6 + a ^ 5 / 40 - a ^ 7 / 336 - 5 * a ^ 9 / 13824 ≤
      ∫ t in (0 : ℝ)..a, Real.exp (-t ^ 2 / 2) := by
  have hpt : ∀ t ∈ Icc (0 : ℝ) a,
      (1 - t ^ 2 / 2 + t ^ 4 / 8 - t ^ 6 / 48) - 5 * t ^ 8 / 1536 ≤ Real.exp (-t ^ 2 / 2) := by
    intro t ht
    have hb := abs_sub_le_iff.mp (exp_poly_bound ht.1 (ht.2.trans h1))
    linarith [hb.2]
  have hintP : IntervalIntegrable
      (fun t : ℝ => (1 - t ^ 2 / 2 + t ^ 4 / 8 - t ^ 6 / 48) - 5 * t ^ 8 / 1536) volume 0 a :=
    (continuous_gauss_poly.sub continuous_gauss_err).intervalIntegrable 0 a
  have hintE := continuous_exp_neg_sq.intervalIntegrable (μ := volume) 0 a
  have hmono := intervalIntegral.integral_mono_on h0 hintP hintE hpt
  have hsplit : (∫ t in (0 : ℝ)..a,
      ((1 - t ^ 2 / 2 + t ^ 4 / 8 - t ^ 6 / 48) - 5 * t ^ 8 / 1536)) =
      (a - a ^ 3 / 6 + a ^ 5 / 40 - a ^ 7 / 336) - 5 * a ^ 9 / 13824 := by
    rw [intervalIntegral.integral_sub (continuous_gauss_poly.intervalIntegrable 0 a)
      (continuous_gauss_err.intervalIntegrable 0 a),
      integral_gauss_poly, integral_gauss_err]
  rw [hsplit] at hmono
  linarith

/-- Upper Taylor bracket for the Gaussian integral on [0, a]. -/
lemma gauss_integral_ub {a : ℝ} (h0 : 0 ≤ a) (h1 : a ≤ 1) :
    (∫ t in (0 : ℝ)..a, Real.exp (-t ^ 2 / 2)) ≤
      a - a ^ 3 / 6 + a ^ 5 / 40 - a ^ 7 / 336 + 5 * a ^ 9 / 13824 := by
  have hpt : ∀ t ∈ Icc (0 : ℝ) a,
      Real.exp (-t ^ 2 / 2) ≤ (1 - t ^ 2 / 2 + t ^ 4 / 8 - t ^ 6 / 48) + 5 * t ^ 8 / 1536 := by
    intro t ht
    have hb := abs_sub_le_iff.mp (exp_poly_bound ht.1 (ht.2.trans h1))
    linarith [hb.1]
  have hintP : IntervalIntegrable
      (fun t : ℝ => (1 - t ^ 2 / 2 + t ^ 4 / 8 - t ^ 6 / 48) + 5 * t ^ 8 / 1536) volume 0 a :=
    (continuous_gauss_poly.add continuous_gauss_err).intervalIntegrable 0 a
  have hintE := continuous_exp_neg_sq.intervalIntegrable (μ := volume) 0 a
  have hmono := intervalIntegral.integral_mono_on h0 hintE hintP hpt
  have hsplit : (∫ t in (0 : ℝ)..a,
      ((1 - t ^ 2 / 2 + t ^ 4 / 8 - t ^ 6 / 48) + 5 * t ^ 8 / 1536)) =
      (a - a ^ 3 / 6 + a ^ 5 / 40 - a ^ 7 / 336) + 5 * a ^ 9 / 13824 := by
    rw [intervalIntegral.integral_add (continuous_gauss_poly.intervalIntegrable 0 a)
      (continuous_gauss_err.intervalIntegrable 0 a),
      integral_gauss_poly, integral_gauss_err]
  rw [hsplit] at hmono
  linarith

lemma sqrt_two_pi_lt : Real.sqrt (2 * Real.pi) < 2.506629 := by
  refine (Real.sqrt_lt' (by norm_num)).mpr ?_
  have hsq : ((2.506629 : ℝ)) ^ 2 = 6.283188943641 := by norm_num
  have hpi := Real.pi_lt_d6
  rw [hsq]
  linarith

lemma lt_sqrt_two_pi : 2.506628 < Real.sqrt (2 * Real.pi) := by
  refine (Real.lt_sqrt (by norm_num)).mpr ?_
  have hsq : ((2.506628 : ℝ)) ^ 2 = 6.283183930384 := by norm_num
  have hpi := Real.pi_gt_d6
  rw [hsq]
  linarith

/-! Rational brackets for the exponentials and normal CDF values that the
reference scenario needs. -/

lemma exp_neg_05_bounds :
    0.95122942 < Real.exp (-(0.05 : ℝ)) ∧ Real.exp (-(0.05 : ℝ)) < 0.95122944 := by
  have habs : |(-(0.05 : ℝ))| = 0.05 := by
    rw [abs_neg, abs_of_nonneg (by norm_num : (0 : ℝ) ≤ 0.05)]
  have hx : |(-(0.05 : ℝ))| ≤ 1 := by rw [habs]; norm_num
  have h := Real.exp_bound hx (by norm_num : (0 : ℕ) < 5)
  rw [habs] at h
  have h2 := abs_sub_le_iff.mp h
  have hA := h2.1
  have hB := h2.2
  norm_num [Finset.sum_range_succ, Nat.factorial, Nat.succ_eq_add_one] at hA hB
  constructor <;> linarith

lemma exp_neg_06125_bounds :
    0.9405867 < Real.exp (-(49 / 800 : ℝ)) ∧ Real.exp (-(49 / 800 : ℝ)) < 0.9405883 := by
  have habs : |(-(49 / 800 : ℝ))| = 49 / 800 := by
    rw [abs_neg, abs_of_nonneg (by norm_num : (0 : ℝ) ≤ 49 / 800)]
  have hx : |(-(49 / 800 : ℝ))| ≤ 1 := by rw [habs]; norm_num
  have h := Real.exp_bound hx (by norm_num : (0 : ℕ) < 4)
  rw [habs] at h
  have h2 := abs_sub_le_iff.mp h
  have hA := h2.1
  have hB := h2.2
  norm_num [Finset.sum_range_succ, Nat.factorial, Nat.succ_eq_add_one] at hA hB
  constructor <;> linarith

lemma normCdf_35_bounds :
    0.6368305 < normCdf (0.35 : ℝ) ∧ normCdf (0.35 : ℝ) < 0.636831 := by
  have hJ1 : (0.3429835 : ℝ) ≤ ∫ t in (0 : ℝ)..(0.35 : ℝ), Real.exp (-t ^ 2 / 2) := by
    refine le_trans ?_ (gauss_integral_lb (by norm_num) (by norm_num))
    norm_num
  have hJ2 : (∫ t in (0 : ℝ)..(0.35 : ℝ), Real.exp (-t ^ 2 / 2)) ≤ 0.3429836 := by
    refine le_trans (gauss_integral_ub (by norm_num) (by norm_num)) ?_
    norm_num
  have hs1 := lt_sqrt_two_pi
  have hs2 := sqrt_two_pi_lt
  have hs0 := sqrt_two_pi_pos
  rw [normCdf_eq_exp_integral]
  constructor
  · have h2 : (0.1368305 : ℝ) <
        (∫ t in (0 : ℝ)..(0.35 : ℝ), Real.exp (-t ^ 2 / 2)) / Real.sqrt (2 * Real.pi) := by
      rw [lt_div_iff₀ hs0]
      linarith
    linarith
  · have h2 : (∫ t in (0 : ℝ)..(0.35 : ℝ), Real.exp (-t ^ 2 / 2)) / Real.sqrt (2 * Real.pi) <
        0.136831 := by
      rw [div_lt_iff₀ hs0]
      linarith
    linarith

lemma normCdf_15_bounds :
    0.5596175 < normCdf (0.15 : ℝ) ∧ normCdf (0.15 : ℝ) < 0.5596180 := by
  have hJ1 : (0.1494393 : ℝ) ≤ ∫ t in (0 : ℝ)..(0.15 : ℝ), Real.exp (-t ^ 2 / 2) := by
    refine le_trans ?_ (gauss_integral_lb (by norm_num) (by norm_num))
    norm_num
  have hJ2 : (∫ t in (0 : ℝ)..(0.15 : ℝ), Real.exp (-t ^ 2 / 2)) ≤ 0.1494394 := by
    refine le_trans (gauss_integral_ub (by norm_num) (by norm_num)) ?_
    norm_num
  have hs1 := lt_sqrt_two_pi
  have hs2 := sqrt_two_pi_lt
  have hs0 := sqrt_two_pi_pos
  rw [normCdf_eq_exp_integral]
  constructor
  · have h2 : (0.0596175 : ℝ) <
        (∫ t in (0 : ℝ)..(0.15 : ℝ), Real.exp (-t ^ 2 / 2)) / Real.sqrt (2 * Real.pi) := by
      rw [lt_div_iff₀ hs0]
      linarith
    linarith
  · have h2 : (∫ t in (0 : ℝ)..(0.15 : ℝ), Real.exp (-t ^ 2 / 2)) / Real.sqrt (2 * Real.pi) <
        0.0596180 := by
      rw [div_lt_iff₀ hs0]
      linarith
    linarith

/-! Algebraic identities of the pre-rounding outputs. -/

/-- Put-call parity of the pre-rounding prices, from the reflection
identity of the normal CDF. -/
lemma put_call_parity_raw (S K T sigma r q : ℝ) :
    callPriceRaw S K T sigma r q - putPriceRaw S K T sigma r q =
      S * Real.exp (-q * T) - K * Real.exp (-r * T) := by
  have h1 := normCdf_add_neg (d1 S K T sigma r q)
  have h2 := normCdf_add_neg (d2 S K T sigma r q)
  unfold callPriceRaw putPriceRaw
  linear_combination S * Real.exp (-q * T) * h1 - K * Real.exp (-r * T) * h2

/-- Delta parity of the pre-rounding deltas, from the reflection identity
of the normal CDF. -/
lemma delta_parity_raw (S K T sigma r q : ℝ) :
    callDeltaRaw S K T sigma r q - putDeltaRaw S K T sigma r q = Real.exp (-q * T) := by
  have h1 := normCdf_add_neg (d1 S K T sigma r q)
  unfold callDeltaRaw putDeltaRaw
  linear_combination Real.exp (-q * T) * h1

/-! Evaluation of the pricer at the reference scenario
S=100, K=100, T=1, sigma=0.2, r=0.05, q=0. -/

lemma exp_neg_mul_one (x : ℝ) : Real.exp (-x * 1) = Real.exp (-x) := by
  norm_num

lemma d1_ref : d1 100 100 1 0.2 0.05 0 = 0.35 := by
  rw [d1]
  norm_num [Real.log_one, Real.sqrt_one]

lemma d2_ref : d2 100 100 1 0.2 0.05 0 = 0.15 := by
  rw [d2, d1_ref, Real.sqrt_one]
  norm_num

lemma callPriceRaw_ref_bounds :
    10.4505 < callPriceRaw 100 100 1 0.2 0.05 0 ∧ callPriceRaw 100 100 1 0.2 0.05 0 < 10.4507 := by
  have h35 := normCdf_35_bounds
  have h15 := normCdf_15_bounds
  have hE := exp_neg_05_bounds
  unfold callPriceRaw
  rw [d1_ref, d2_ref, exp_neg_mul_one, exp_neg_mul_one, neg_zero, Real.exp_zero]
  have hp1 : Real.exp (-(0.05 : ℝ)) * normCdf 0.15 < 0.95122944 * 0.5596180 := by
    nlinarith [h15.1, h15.2, hE.1, hE.2]
  have hp2 : (0.95122942 : ℝ) * 0.5596175 < Real.exp (-(0.05 : ℝ)) * normCdf 0.15 := by
    nlinarith [h15.1, h15.2, hE.1, hE.2]
  constructor <;> nlinarith [h35.1, h35.2]

lemma putPriceRaw_ref_bounds :
    5.565 < putPriceRaw 100 100 1 0.2 0.05 0 ∧ putPriceRaw 100 100 1 0.2 0.05 0 < 5.575 := by
  have hpar := put_call_parity_raw 100 100 1 0.2 0.05 0
  rw [exp_neg_mul_one, exp_neg_mul_one, neg_zero, Real.exp_zero] at hpar
  have hcall := callPriceRaw_ref_bounds
  have hE := exp_neg_05_bounds
  constructor <;> linarith [hE.1, hE.2, hcall.1, hcall.2]

lemma callDeltaRaw_ref_bounds :
    0.63675 < callDeltaRaw 100 100 1 0.2 0.05 0 ∧ callDeltaRaw 100 100 1 0.2 0.05 0 < 0.63685 := by
  have h35 := normCdf_35_bounds
  unfold callDeltaRaw
  rw [d1_ref, exp_neg_mul_one, neg_zero, Real.exp_zero, one_mul]
  constructor <;> linarith [h35.1, h35.2]

lemma putDeltaRaw_ref_bounds :
    -0.36325 < putDeltaRaw 100 100 1 0.2 0.05 0 ∧ putDeltaRaw 100 100 1 0.2 0.05 0 < -0.36315 := by
  have h35 := normCdf_35_bounds
  have hrefl := normCdf_add_neg (0.35 : ℝ)
  unfold putDeltaRaw
  rw [d1_ref, exp_neg_mul_one, neg_zero, Real.exp_zero, one_mul]
  constructor <;> linarith [h35.1, h35.2]

lemma gammaRaw_ref_bounds :
    0.01875 < gammaRaw 100 100 1 0.2 0.05 0 ∧ gammaRaw 100 100 1 0.2 0.05 0 < 0.01885 := by
  have hE := exp_neg_06125_bounds
  have hs1 := lt_sqrt_two_pi
  have hs2 := sqrt_two_pi_lt
  have hs0 := sqrt_two_pi_pos
  unfold gammaRaw
  rw [d1_ref, Real.sqrt_one]
  rw [normPdf, show (-(0.35 : ℝ) ^ 2 / 2) = -(49 / 800 : ℝ) from by norm_num]
  rw [show (100 * 0.2 * 1 : ℝ) = 20 from by norm_num]
  rw [div_div]
  constructor
  · rw [lt_div_iff₀ (by positivity)]
    nlinarith [hE.1]
  · rw [div_lt_iff₀ (by positivity)]
    nlinarith [hE.2]

/-! Nonnegativity of the pre-rounding call and put prices, by writing
each price as the integral of a pointwise-nonnegative function over a
half-line. -/

/-- The CDF at a shifted point as an integral of the shifted density. -/
lemma normCdf_shift (c s : ℝ) : normCdf (c + s) = ∫ x in Iic c, normPdf (x + s) := by
  have hind : (Iic c).indicator (fun y => normPdf (y + s)) =
      fun x => (Iic (c + s)).indicator normPdf (x + s) := by
    funext x
    by_cases hx : x ≤ c
    · rw [indicator_of_mem (mem_Iic.mpr hx),
        indicator_of_mem (mem_Iic.mpr (by linarith))]
    · rw [indicator_of_not_mem (fun hmem => hx (mem_Iic.mp hmem)),
        indicator_of_not_mem (fun hmem => hx (by
          have := mem_Iic.mp hmem
          linarith))]
  calc normCdf (c + s) = ∫ x, (Iic (c + s)).indicator normPdf x :=
        (integral_indicator measurableSet_Iic).symm
    _ = ∫ x, (Iic (c + s)).indicator normPdf (x + s) :=
        (integral_add_right_eq_self (fun x => (Iic (c + s)).indicator normPdf x) s).symm
    _ = ∫ x, (Iic c).indicator (fun y => normPdf (y + s)) x := by rw [hind]
    _ = ∫ x in Iic c, normPdf (x + s) := integral_indicator measurableSet_Iic

lemma integrable_normPdf_shift (s : ℝ) : Integrable fun x : ℝ => normPdf (x + s) :=
  integrable_normPdf.comp_add_right s

/-- The core pointwise comparison: below d2 the shifted, discounted-spot
density weight dominates the discounted-strike density weight. -/
lemma pdf_weight_le {S K T sigma r q : ℝ} (hS : 0 < S) (hK : 0 < K) (hT : 0 < T)
    (hsig : 0 < sigma) {x : ℝ} (hx : x ≤ d2 S K T sigma r q) :
    K * Real.exp (-r * T) * normPdf x ≤
      S * Real.exp (-q * T) * normPdf (x + sigma * Real.sqrt T) := by
  have hs : 0 < sigma * Real.sqrt T := mul_pos hsig (Real.sqrt_pos.mpr hT)
  have hs2 : (sigma * Real.sqrt T) ^ 2 = sigma ^ 2 * T := by
    rw [mul_pow, Real.sq_sqrt hT.le]
  have hsq : Real.sqrt T ^ 2 = T := Real.sq_sqrt hT.le
  have hd2s : d2 S K T sigma r q * (sigma * Real.sqrt T) =
      Real.log (S / K) + (r - q) * T - (sigma * Real.sqrt T) ^ 2 / 2 := by
    rw [d2, d1, sub_mul, div_mul_cancel₀ _ (ne_of_gt hs)]
    linear_combination (-(sigma ^ 2) / 2) * hsq
  have hlog : Real.log (S / K) = Real.log S - Real.log K :=
    Real.log_div (ne_of_gt hS) (ne_of_gt hK)
  have hsx : x * (sigma * Real.sqrt T) ≤ d2 S K T sigma r q * (sigma * Real.sqrt T) :=
    mul_le_mul_of_nonneg_right hx hs.le
  rw [normPdf, normPdf, ← mul_div_assoc, ← mul_div_assoc,
    div_le_div_iff_of_pos_right sqrt_two_pi_pos]
  have hKe : K * Real.exp (-r * T) * Real.exp (-x ^ 2 / 2) =
      Real.exp (Real.log K + -r * T + -x ^ 2 / 2) := by
    rw [Real.exp_add, Real.exp_add, Real.exp_log hK]
  have hSe : S * Real.exp (-q * T) * Real.exp (-(x + sigma * Real.sqrt T) ^ 2 / 2) =
      Real.exp (Real.log S + -q * T + -(x + sigma * Real.sqrt T) ^ 2 / 2) := by
    rw [Real.exp_add, Real.exp_add, Real.exp_log hS]
  rw [hKe, hSe, Real.exp_le_exp]
  nlinarith [hd2s, hsx, hlog]

/-- The pre-rounding call price as a set integral of a nonnegative
function. -/
lemma callPriceRaw_nonneg {S K T sigma r q : ℝ} (hS : 0 < S) (hK : 0 < K) (hT : 0 < T)
    (hsig : 0 < sigma) : 0 ≤ callPriceRaw S K T sigma r q := by
  have hd : d1 S K T sigma r q = d2 S K T sigma r q + sigma * Real.sqrt T := by
    rw [d2]; ring
  have hint1 : IntegrableOn
      (fun x => S * Real.exp (-q * T) * normPdf (x + sigma * Real.sqrt T))
      (Iic (d2 S K T sigma r q)) :=
    (((integrable_normPdf_shift (sigma * Real.sqrt T)).const_mul
      (S * Real.exp (-q * T)))).integrableOn
  have hint2 : IntegrableOn (fun x => K * Real.exp (-r * T) * normPdf x)
      (Iic (d2 S K T sigma r q)) :=
    ((integrable_normPdf.const_mul (K * Real.exp (-r * T)))).integrableOn
  have hrep : callPriceRaw S K T sigma r q =
      ∫ x in Iic (d2 S K T sigma r q),
        (S * Real.exp (-q * T) * normPdf (x + sigma * Real.sqrt T) -
          K * Real.exp (-r * T) * normPdf x) := by
    rw [MeasureTheory.integral_sub hint1 hint2, integral_mul_left, integral_mul_left,
      callPriceRaw, hd, normCdf_shift, normCdf]
  rw [hrep]
  refine setIntegral_nonneg measurableSet_Iic fun x hx => ?_
  have := pdf_weight_le hS hK hT hsig (mem_Iic.mp hx)
  linarith

/-- The core pointwise comparison on the put side: below -d2 the
discounted-strike density weight dominates the shifted discounted-spot
density weight. -/
lemma pdf_weight_le_put {S K T sigma r q : ℝ} (hS : 0 < S) (hK : 0 < K) (hT : 0 < T)
    (hsig : 0 < sigma) {x : ℝ} (hx : x ≤ -d2 S K T sigma r q) :
    S * Real.exp (-q * T) * normPdf (x + -(sigma * Real.sqrt T)) ≤
      K * Real.exp (-r * T) * normPdf x := by
  have hs : 0 < sigma * Real.sqrt T := mul_pos hsig (Real.sqrt_pos.mpr hT)
  have hs2 : (sigma * Real.sqrt T) ^ 2 = sigma ^ 2 * T := by
    rw [mul_pow, Real.sq_sqrt hT.le]
  have hsq : Real.sqrt T ^ 2 = T := Real.sq_sqrt hT.le
  have hd2s : d2 S K T sigma r q * (sigma * Real.sqrt T) =
      Real.log (S / K) + (r - q) * T - (sigma * Real.sqrt T) ^ 2 / 2 := by
    rw [d2, d1, sub_mul, div_mul_cancel₀ _ (ne_of_gt hs)]
    linear_combination (-(sigma ^ 2) / 2) * hsq
  have hlog : Real.log (S / K) = Real.log S - Real.log K :=
    Real.log_div (ne_of_gt hS) (ne_of_gt hK)
  have hsx : x * (sigma * Real.sqrt T) ≤ -d2 S K T sigma r q * (sigma * Real.sqrt T) :=
    mul_le_mul_of_nonneg_right hx hs.le
  rw [normPdf, normPdf, ← mul_div_assoc, ← mul_div_assoc,
    div_le_div_iff_of_pos_right sqrt_two_pi_pos]
  have hKe : K * Real.exp (-r * T) * Real.exp (-x ^ 2 / 2) =
      Real.exp (Real.log K + -r * T + -x ^ 2 / 2) := by
    rw [Real.exp_add, Real.exp_add, Real.exp_log hK]
  have hSe : S * Real.exp (-q * T) * Real.exp (-(x + -(sigma * Real.sqrt T)) ^ 2 / 2) =
      Real.exp (Real.log S + -q * T + -(x + -(sigma * Real.sqrt T)) ^ 2 / 2) := by
    rw [Real.exp_add, Real.exp_add, Real.exp_log hS]
  rw [hKe, hSe, Real.exp_le_exp]
  nlinarith [hd2s, hsx, hlog]

/-- The pre-rounding put price as a set integral of a nonnegative
function. -/
lemma putPriceRaw_nonneg {S K T sigma r q : ℝ} (hS : 0 < S) (hK : 0 < K) (hT : 0 < T)
    (hsig : 0 < sigma) : 0 ≤ putPriceRaw S K T sigma r q := by
  have hd : -d1 S K T sigma r q = -d2 S K T sigma r q + -(sigma * Real.sqrt T) := by
    rw [d2]; ring
  have hint1 : IntegrableOn
      (fun x => S * Real.exp (-q * T) * normPdf (x + -(sigma * Real.sqrt T)))
      (Iic (-d2 S K T sigma r q)) :=
    (((integrable_normPdf_shift (-(sigma * Real.sqrt T))).const_mul
      (S * Real.exp (-q * T)))).integrableOn
  have hint2 : IntegrableOn (fun x => K * Real.exp (-r * T) * normPdf x)
      (Iic (-d2 S K T sigma r q)) :=
    ((integrable_normPdf.const_mul (K * Real.exp (-r * T)))).integrableOn
  have hrep : putPriceRaw S K T sigma r q =
      ∫ x in Iic (-d2 S K T sigma r q),
        (K * Real.exp (-r * T) * normPdf x -
          S * Real.exp (-q * T) * normPdf (x + -(sigma * Real.sqrt T))) := by
    rw [MeasureTheory.integral_sub hint2 hint1, integral_mul_left, integral_mul_left,
      putPriceRaw, hd, normCdf_shift, normCdf]
  rw [hrep]
  refine setIntegral_nonneg measurableSet_Iic fun x hx => ?_
  have := pdf_weight_le_put hS hK hT hsig (mem_Iic.mp hx)
  linarith

/-! Unfolding helpers for the pricer. -/

/-- On validated inputs the pricer succeeds and returns the rounded raw
values. -/
lemma calc_eq_ok {S K T sigma r q : ℝ} (hS : 0 < S) (hK : 0 < K) (hT : 0 < T)
    (hsig : 0 < sigma) (hr0 : 0 ≤ r) (hr1 : r ≤ 1) (hq0 : 0 ≤ q) (hq1 : q ≤ 1) :
    calculate_option_prices S K T sigma r q = Except.ok
      { call_price := pyRound 2 (callPriceRaw S K T sigma r q)
        put_price := pyRound 2 (putPriceRaw S K T sigma r q)
        call_delta := pyRound 4 (callDeltaRaw S K T sigma r q)
        put_delta := pyRound 4 (putDeltaRaw S K T sigma r q)
        gamma := pyRound 4 (gammaRaw S K T sigma r q) } := by
  unfold calculate_option_prices
  rw [if_neg (by push_neg; exact ⟨hS, hK, hT, hsig⟩),
    if_neg (by push_neg; exact ⟨⟨hr0, hr1⟩, hq0, hq1⟩)]

/-- On an ok result, the validation necessarily passed. -/
lemma calc_ok_inv {S K T sigma r q : ℝ} {res : PricingResult}
    (h : calculate_option_prices S K T sigma r q = Except.ok res) :
    (0 < S ∧ 0 < K ∧ 0 < T ∧ 0 < sigma) ∧ (0 ≤ r ∧ r ≤ 1) ∧ (0 ≤ q ∧ q ≤ 1) ∧
      res = { call_price := pyRound 2 (callPriceRaw S K T sigma r q)
              put_price := pyRound 2 (putPriceRaw S K T sigma r q)
              call_delta := pyRound 4 (callDeltaRaw S K T sigma r q)
              put_delta := pyRound 4 (putDeltaRaw S K T sigma r q)
              gamma := pyRound 4 (gammaRaw S K T sigma r q) } := by
  unfold calculate_option_prices at h
  by_cases h1 : S ≤ 0 ∨ K ≤ 0 ∨ T ≤ 0 ∨ sigma ≤ 0
  · rw [if_pos h1] at h
    exact absurd h (by simp)
  by_cases h2 : ¬(0 ≤ r ∧ r ≤ 1) ∨ ¬(0 ≤ q ∧ q ≤ 1)
  · rw [if_neg h1, if_pos h2] at h
    exact absurd h (by simp)
  rw [if_neg h1, if_neg h2] at h
  push_neg at h1 h2
  simp only [Except.ok.injEq] at h
  exact ⟨h1, h2.1, h2.2, h.symm⟩

/-! The claim theorems about the pricer. -/

set_option maxHeartbeats 1000000 in
/-- C1: on every validated input, `calculate_option_prices` returns
exactly the Black-Scholes-Merton closed-form values (with the spec's `d1`
and `d2`), with prices rounded to 2 decimals and Greeks to 4 decimals;
and the reference scenario S=100, K=100, T=1, sigma=0.2, r=0.05, q=0
yields call 10.45, put 5.57, call delta 0.6368, put delta -0.3632 and
gamma 0.0188. -/
theorem calc_formula_correct (S K T sigma r q : ℝ) (hS : 0 < S) (hK : 0 < K)
    (hT : 0 < T) (hsig : 0 < sigma) (hr0 : 0 ≤ r) (hr1 : r ≤ 1) (hq0 : 0 ≤ q)
    (hq1 : q ≤ 1) :
    calculate_option_prices S K T sigma r q = Except.ok
      { call_price := pyRound 2 (S * Real.exp (-q * T) *
          normCdf ((Real.log (S / K) + (r - q + 0.5 * sigma ^ 2) * T) /
            (sigma * Real.sqrt T)) -
          K * Real.exp (-r * T) *
          normCdf ((Real.log (S / K) + (r - q + 0.5 * sigma ^ 2) * T) /
            (sigma * Real.sqrt T) - sigma * Real.sqrt T))
        put_price := pyRound 2 (K * Real.exp (-r * T) *
          normCdf (-((Real.log (S / K) + (r - q + 0.5 * sigma ^ 2) * T) /
            (sigma * Real.sqrt T) - sigma * Real.sqrt T)) -
          S * Real.exp (-q * T) *
          normCdf (-((Real.log (S / K) + (r - q + 0.5 * sigma ^ 2) * T) /
            (sigma * Real.sqrt T))))
        call_delta := pyRound 4 (Real.exp (-q * T) *
          normCdf ((Real.log (S / K) + (r - q + 0.5 * sigma ^ 2) * T) /
            (sigma * Real.sqrt T)))
        put_delta := pyRound 4 (-(Real.exp (-q * T) *
          normCdf (-((Real.log (S / K) + (r - q + 0.5 * sigma ^ 2) * T) /
            (sigma * Real.sqrt T)))))
        gamma := pyRound 4 (normPdf ((Real.log (S / K) + (r - q + 0.5 * sigma ^ 2) * T) /
          (sigma * Real.sqrt T)) / (S * sigma * Real.sqrt T)) } ∧
    calculate_option_prices 100 100 1 0.2 0.05 0 = Except.ok
      { call_price := 10.45, put_price := 5.57, call_delta := 0.6368,
        put_delta := -0.3632, gamma := 0.0188 } := by
  constructor
  · rw [calc_eq_ok hS hK hT hsig hr0 hr1 hq0 hq1]
    simp only [callPriceRaw, putPriceRaw, callDeltaRaw, putDeltaRaw, gammaRaw, d2, d1]
  · rw [calc_eq_ok (by norm_num) (by norm_num) (by norm_num) (by norm_num)
      (by norm_num) (by norm_num) (by norm_num) (by norm_num)]
    have hc := callPriceRaw_ref_bounds
    have hp := putPriceRaw_ref_bounds
    have hcd := callDeltaRaw_ref_bounds
    have hpd := putDeltaRaw_ref_bounds
    have hg := gammaRaw_ref_bounds
    have ec : pyRound 2 (callPriceRaw 100 100 1 0.2 0.05 0) = ((1045 : ℤ) : ℝ) / 10 ^ 2 :=
      pyRound_eq (by push_cast; nlinarith [hc.1]) (by push_cast; nlinarith [hc.2])
    have ep : pyRound 2 (putPriceRaw 100 100 1 0.2 0.05 0) = ((557 : ℤ) : ℝ) / 10 ^ 2 :=
      pyRound_eq (by push_cast; nlinarith [hp.1]) (by push_cast; nlinarith [hp.2])
    have ecd : pyRound 4 (callDeltaRaw 100 100 1 0.2 0.05 0) = ((6368 : ℤ) : ℝ) / 10 ^ 4 :=
      pyRound_eq (by push_cast; nlinarith [hcd.1]) (by push_cast; nlinarith [hcd.2])
    have epd : pyRound 4 (putDeltaRaw 100 100 1 0.2 0.05 0) = ((-3632 : ℤ) : ℝ) / 10 ^ 4 :=
      pyRound_eq (by push_cast; nlinarith [hpd.1]) (by push_cast; nlinarith [hpd.2])
    have eg : pyRound 4 (gammaRaw 100 100 1 0.2 0.05 0) = ((188 : ℤ) : ℝ) / 10 ^ 4 :=
      pyRound_eq (by push_cast; nlinarith [hg.1]) (by push_cast; nlinarith [hg.2])
    rw [ec, ep, ecd, epd, eg]
    norm_num

/-- Witness for C1: the first conjunct applied at the reference inputs. -/
theorem calc_formula_correct_witness :
    calculate_option_prices 100 100 1 0.2 0.05 0 = Except.ok
      { call_price := 10.45, put_price := 5.57, call_delta := 0.6368,
        put_delta := -0.3632, gamma := 0.0188 } :=
  (calc_formula_correct 100 100 1 0.2 0.05 0 (by norm_num) (by norm_num) (by norm_num)
    (by norm_num) (by norm_num) (by norm_num) (by norm_num) (by norm_num)).2

/-- C2: the pricer errors exactly when a positivity bound or a rate bound
is violated; on the complementary inputs it returns a result and the two
divisors of the formula are nonzero. -/
theorem calc_error_characterization (S K T sigma r q : ℝ) :
    ((∃ msg, calculate_option_prices S K T sigma r q = Except.error msg) ↔
      (S ≤ 0 ∨ K ≤ 0 ∨ T ≤ 0 ∨ sigma ≤ 0 ∨ r < 0 ∨ 1 < r ∨ q < 0 ∨ 1 < q)) ∧
    ((∃ res, calculate_option_prices S K T sigma r q = Except.ok res ∧
        sigma * Real.sqrt T ≠ 0 ∧ S * sigma * Real.sqrt T ≠ 0) ↔
      (0 < S ∧ 0 < K ∧ 0 < T ∧ 0 < sigma ∧ 0 ≤ r ∧ r ≤ 1 ∧ 0 ≤ q ∧ q ≤ 1)) := by
  by_cases hvalid : (0 < S ∧ 0 < K ∧ 0 < T ∧ 0 < sigma) ∧ (0 ≤ r ∧ r ≤ 1) ∧ (0 ≤ q ∧ q ≤ 1)
  · obtain ⟨⟨hS, hK, hT, hsig⟩, ⟨hr0, hr1⟩, hq0, hq1⟩ := hvalid
    have hok := calc_eq_ok hS hK hT hsig hr0 hr1 hq0 hq1
    have hsqT : 0 < sigma * Real.sqrt T := mul_pos hsig (Real.sqrt_pos.mpr hT)
    constructor
    · constructor
      · rintro ⟨msg, hmsg⟩
        rw [hok] at hmsg
        exact absurd hmsg (by simp)
      · intro hbad
        rcases hbad with h | h | h | h | h | h | h | h <;> linarith
    · constructor
      · intro _
        exact ⟨hS, hK, hT, hsig, hr0, hr1, hq0, hq1⟩
      · intro _
        exact ⟨_, hok, ne_of_gt hsqT, ne_of_gt (mul_pos (mul_pos hS hsig)
          (Real.sqrt_pos.mpr hT))⟩
  · have herr : ∃ msg, calculate_option_prices S K T sigma r q = Except.error msg := by
      unfold calculate_option_prices
      by_cases h1 : S ≤ 0 ∨ K ≤ 0 ∨ T ≤ 0 ∨ sigma ≤ 0
      · rw [if_pos h1]
        exact ⟨_, rfl⟩
      · have h2 : ¬(0 ≤ r ∧ r ≤ 1) ∨ ¬(0 ≤ q ∧ q ≤ 1) := by
          by_contra hc
          push_neg at hc h1
          exact hvalid ⟨h1, hc.1, hc.2⟩
        rw [if_neg h1, if_pos h2]
        exact ⟨_, rfl⟩
    constructor
    · constructor
      · intro _
        by_contra hc
        push_neg at hc
        obtain ⟨nS, nK, nT, nsig, nr0, nr1, nq0, nq1⟩ := hc
        exact hvalid ⟨⟨nS, nK, nT, nsig⟩, ⟨nr0, nr1⟩, nq0, nq1⟩
      · intro _
        exact herr
    · constructor
      · rintro ⟨res, hres, _⟩
        obtain ⟨msg, hmsg⟩ := herr
        rw [hres] at hmsg
        exact absurd hmsg (by simp)
      · rintro ⟨hS, hK, hT, hsig, hr0, hr1, hq0, hq1⟩
        exact absurd ⟨⟨hS, hK, hT, hsig⟩, ⟨hr0, hr1⟩, hq0, hq1⟩ hvalid

/-- C7: put-call parity of the pre-rounding prices on every validated
input. -/
theorem putCallParity (S K T sigma r q : ℝ) (hS : 0 < S) (hK : 0 < K) (hT : 0 < T)
    (hsig : 0 < sigma) (hr0 : 0 ≤ r) (hr1 : r ≤ 1) (hq0 : 0 ≤ q) (hq1 : q ≤ 1) :
    callPriceRaw S K T sigma r q - putPriceRaw S K T sigma r q =
      S * Real.exp (-q * T) - K * Real.exp (-r * T) :=
  put_call_parity_raw S K T sigma r q

/-- Witness for C7 at the reference inputs. -/
theorem putCallParity_witness :
    callPriceRaw 100 100 1 0.2 0.05 0 - putPriceRaw 100 100 1 0.2 0.05 0 =
      100 * Real.exp (-(0 : ℝ) * 1) - 100 * Real.exp (-(0.05 : ℝ) * 1) :=
  putCallParity 100 100 1 0.2 0.05 0 (by norm_num) (by norm_num) (by norm_num)
    (by norm_num) (by norm_num) (by norm_num) (by norm_num) (by norm_num)

/-- C9: the pre-rounding deltas differ by the dividend discount factor on
every validated input. -/
theorem deltaParity (S K T sigma r q : ℝ) (hS : 0 < S) (hK : 0 < K) (hT : 0 < T)
    (hsig : 0 < sigma) (hr0 : 0 ≤ r) (hr1 : r ≤ 1) (hq0 : 0 ≤ q) (hq1 : q ≤ 1) :
    callDeltaRaw S K T sigma r q - putDeltaRaw S K T sigma r q = Real.exp (-q * T) :=
  delta_parity_raw S K T sigma r q

/-- Witness for C9 at the reference inputs. -/
theorem deltaParity_witness :
    callDeltaRaw 100 100 1 0.2 0.05 0 - putDeltaRaw 100 100 1 0.2 0.05 0 =
      Real.exp (-(0 : ℝ) * 1) :=
  deltaParity 100 100 1 0.2 0.05 0 (by norm_num) (by norm_num) (by norm_num)
    (by norm_num) (by norm_num) (by norm_num) (by norm_num) (by norm_num)

/-- C8: every returned delta and gamma respects the stated bounds:
call delta in [0,1], put delta in [-1,0], gamma nonnegative. -/
theorem greeks_bounds (S K T sigma r q : ℝ) (res : PricingResult)
    (h : calculate_option_prices S K T sigma r q = Except.ok res) :
    0 ≤ res.call_delta ∧ res.call_delta ≤ 1 ∧ -1 ≤ res.put_delta ∧
      res.put_delta ≤ 0 ∧ 0 ≤ res.gamma := by
  obtain ⟨⟨hS, hK, hT, hsig⟩, ⟨hr0, hr1⟩, ⟨hq0, hq1⟩, hres⟩ := calc_ok_inv h
  subst hres
  have hqT : Real.exp (-q * T) ≤ 1 := by
    rw [Real.exp_le_one_iff]
    nlinarith [mul_nonneg hq0 hT.le]
  have hcd0 : 0 ≤ callDeltaRaw S K T sigma r q :=
    mul_nonneg (Real.exp_nonneg _) (normCdf_nonneg _)
  have hcd1 : callDeltaRaw S K T sigma r q ≤ 1 := by
    rw [callDeltaRaw]
    nlinarith [normCdf_nonneg (d1 S K T sigma r q), normCdf_le_one (d1 S K T sigma r q),
      Real.exp_nonneg (-q * T)]
  have hpd0 : putDeltaRaw S K T sigma r q ≤ 0 := by
    rw [putDeltaRaw]
    nlinarith [normCdf_nonneg (-d1 S K T sigma r q), Real.exp_nonneg (-q * T)]
  have hpd1 : -1 ≤ putDeltaRaw S K T sigma r q := by
    rw [putDeltaRaw]
    nlinarith [normCdf_nonneg (-d1 S K T sigma r q),
      normCdf_le_one (-d1 S K T sigma r q), Real.exp_nonneg (-q * T)]
  have hg0 : 0 ≤ gammaRaw S K T sigma r q :=
    div_nonneg (normPdf_nonneg _) (by positivity)
  refine ⟨?_, ?_, ?_, ?_, ?_⟩
  · have h0 := int_le_pyRound (k := 4) (n := 0)
      (by push_cast; exact hcd0 : ((0 : ℤ) : ℝ) ≤ callDeltaRaw S K T sigma r q)
    simpa using h0
  · have h0 := pyRound_le_int (k := 4) (n := 1)
      (by push_cast; exact hcd1 : callDeltaRaw S K T sigma r q ≤ ((1 : ℤ) : ℝ))
    simpa using h0
  · have h0 := int_le_pyRound (k := 4) (n := -1)
      (by push_cast; exact hpd1 : ((-1 : ℤ) : ℝ) ≤ putDeltaRaw S K T sigma r q)
    simpa using h0
  · have h0 := pyRound_le_int (k := 4) (n := 0)
      (by push_cast; exact hpd0 : putDeltaRaw S K T sigma r q ≤ ((0 : ℤ) : ℝ))
    simpa using h0
  · have h0 := int_le_pyRound (k := 4) (n := 0)
      (by push_cast; exact hg0 : ((0 : ℤ) : ℝ) ≤ gammaRaw S K T sigma r q)
    simpa using h0

/-- Witness for C8 at concrete inputs. -/
theorem greeks_bounds_witness :
    0 ≤ pyRound 4 (callDeltaRaw 1 1 1 1 0 0) ∧ pyRound 4 (callDeltaRaw 1 1 1 1 0 0) ≤ 1 ∧
      -1 ≤ pyRound 4 (putDeltaRaw 1 1 1 1 0 0) ∧ pyRound 4 (putDeltaRaw 1 1 1 1 0 0) ≤ 0 ∧
      0 ≤ pyRound 4 (gammaRaw 1 1 1 1 0 0) :=
  greeks_bounds 1 1 1 1 0 0
    { call_price := pyRound 2 (callPriceRaw 1 1 1 1 0 0)
      put_price := pyRound 2 (putPriceRaw 1 1 1 1 0 0)
      call_delta := pyRound 4 (callDeltaRaw 1 1 1 1 0 0)
      put_delta := pyRound 4 (putDeltaRaw 1 1 1 1 0 0)
      gamma := pyRound 4 (gammaRaw 1 1 1 1 0 0) }
    (calc_eq_ok (by norm_num) (by norm_num) (by norm_num) (by norm_num) (by norm_num)
      (by norm_num) (by norm_num) (by norm_num))

/-! List access lemmas for the grid axes and matrices. -/

lemma linspace_length (a b : ℝ) (n : ℕ) : (linspace a b n).length = n := by
  simp only [linspace, List.length_map, List.length_range]

lemma linspace_getD {a b : ℝ} {n i : ℕ} (h : i < n) (d : ℝ) :
    (linspace a b n).getD i d = a + i * (b - a) / ((n : ℝ) - 1) := by
  have hlen : i < (linspace a b n).length := by rw [linspace_length]; exact h
  rw [List.getD_eq_getElem _ _ hlen]
  simp only [linspace, List.getElem_map, List.getElem_range]

lemma getD_map_of_lt (f : ℝ → ℝ) (l : List ℝ) (i : ℕ) (d e : ℝ) (h : i < l.length) :
    (l.map f).getD i d = f (l.getD i e) := by
  have hlen : i < (l.map f).length := by simpa using h
  rw [List.getD_eq_getElem _ _ hlen, List.getElem_map, List.getD_eq_getElem _ _ h]

lemma gridSpots_length (p : ℝ × ℝ) (n : ℕ) : (gridSpots p n).length = n := by
  rw [gridSpots, linspace_length]

lemma gridVols_length (p : ℝ × ℝ) (n : ℕ) : (gridVols p n).length = n := by
  rw [gridVols, linspace_length]

/-- A call-price cell of the returned grid is the call component of the
corresponding cell computation. -/
lemma grid_call_cell (base : CalculationRequest) (sr vr : ℝ × ℝ) (n i j : ℕ)
    (hi : i < n) (hj : j < n) :
    ((generate_heatmap_data base sr vr n).call_prices.getD i []).getD j 0 =
      (cellPair base.strike_price base.time_to_maturity base.risk_free_rate
        base.dividend_yield ((gridSpots sr n).getD i 0) ((gridVols vr n).getD j 0)).1 := by
  have hls : i < (gridSpots sr n).length := by rw [gridSpots_length]; exact hi
  have hlv : j < (gridVols vr n).length := by rw [gridVols_length]; exact hj
  simp only [generate_heatmap_data]
  have hrow : ((gridSpots sr n).map (fun s => (gridVols vr n).map
      (fun v => (cellPair base.strike_price base.time_to_maturity base.risk_free_rate
        base.dividend_yield s v).1))).getD i [] =
      (gridVols vr n).map (fun v => (cellPair base.strike_price base.time_to_maturity
        base.risk_free_rate base.dividend_yield ((gridSpots sr n).getD i 0) v).1) := by
    have hlen : i < ((gridSpots sr n).map (fun s => (gridVols vr n).map
        (fun v => (cellPair base.strike_price base.time_to_maturity base.risk_free_rate
          base.dividend_yield s v).1))).length := by simpa using hls
    rw [List.getD_eq_getElem _ _ hlen, List.getElem_map, List.getD_eq_getElem _ _ hls]
  rw [hrow, getD_map_of_lt _ _ _ _ 0 hlv]

/-- A put-price cell of the returned grid is the put component of the
corresponding cell computation. -/
lemma grid_put_cell (base : CalculationRequest) (sr vr : ℝ × ℝ) (n i j : ℕ)
    (hi : i < n) (hj : j < n) :
    ((generate_heatmap_data base sr vr n).put_prices.getD i []).getD j 0 =
      (cellPair base.strike_price base.time_to_maturity base.risk_free_rate
        base.dividend_yield ((gridSpots sr n).getD i 0) ((gridVols vr n).getD j 0)).2 := by
  have hls : i < (gridSpots sr n).length := by rw [gridSpots_length]; exact hi
  have hlv : j < (gridVols vr n).length := by rw [gridVols_length]; exact hj
  simp only [generate_heatmap_data]
  have hrow : ((gridSpots sr n).map (fun s => (gridVols vr n).map
      (fun v => (cellPair base.strike_price base.time_to_maturity base.risk_free_rate
        base.dividend_yield s v).2))).getD i [] =
      (gridVols vr n).map (fun v => (cellPair base.strike_price base.time_to_maturity
        base.risk_free_rate base.dividend_yield ((gridSpots sr n).getD i 0) v).2) := by
    have hlen : i < ((gridSpots sr n).map (fun s => (gridVols vr n).map
        (fun v => (cellPair base.strike_price base.time_to_maturity base.risk_free_rate
          base.dividend_yield s v).2))).length := by simpa using hls
    rw [List.getD_eq_getElem _ _ hlen, List.getElem_map, List.getD_eq_getElem _ _ hls]
  rw [hrow, getD_map_of_lt _ _ _ _ 0 hlv]

/-- Both components of every cell computation are nonnegative. -/
lemma cellPair_nonneg (K T r q s v : ℝ) :
    0 ≤ (cellPair K T r q s v).1 ∧ 0 ≤ (cellPair K T r q s v).2 := by
  unfold cellPair
  by_cases hsv : s ≤ 0 ∨ v ≤ 0
  · rw [if_pos hsv]
    exact ⟨le_refl 0, le_max_left 0 _⟩
  · rw [if_neg hsv]
    cases hE : calculate_option_prices s K T v r q with
    | error msg =>
      exact ⟨le_max_left 0 _, le_max_left 0 _⟩
    | ok res =>
      obtain ⟨⟨hS, hK, hT, hsig⟩, _, _, hres⟩ := calc_ok_inv hE
      subst hres
      constructor
      · have h0 := int_le_pyRound (k := 2) (n := 0)
          (by push_cast; exact callPriceRaw_nonneg hS hK hT hsig :
            ((0 : ℤ) : ℝ) ≤ callPriceRaw s K T v r q)
        simpa using h0
      · have h0 := int_le_pyRound (k := 2) (n := 0)
          (by push_cast; exact putPriceRaw_nonneg hS hK hT hsig :
            ((0 : ℤ) : ℝ) ≤ putPriceRaw s K T v r q)
        simpa using h0

/-- Rounded linspace values are strictly increasing when the step clears
a whole hundredth. -/
lemma chain_lt_map_linspace {A B : ℝ} {n : ℕ} (hn : 2 ≤ n)
    (hstep : 1 / 100 < (B - A) / ((n : ℝ) - 1)) :
    List.Chain' (fun x y : ℝ => x < y) ((linspace A B n).map (fun x => pyRound 2 x)) := by
  obtain ⟨m, rfl⟩ : ∃ m, n = m + 1 := ⟨n - 1, by omega⟩
  rw [linspace, List.map_map, List.chain'_map, List.chain'_range_succ]
  intro i hi
  simp only [Function.comp]
  have h1 := pyRound_le_add 2 (A + (i : ℝ) * (B - A) / (((m + 1 : ℕ) : ℝ) - 1))
  have h2 := sub_le_pyRound 2 (A + ((i + 1 : ℕ) : ℝ) * (B - A) / (((m + 1 : ℕ) : ℝ) - 1))
  have hd : (A + ((i + 1 : ℕ) : ℝ) * (B - A) / (((m + 1 : ℕ) : ℝ) - 1)) -
      (A + (i : ℝ) * (B - A) / (((m + 1 : ℕ) : ℝ) - 1)) =
      (B - A) / (((m + 1 : ℕ) : ℝ) - 1) := by
    push_cast
    ring
  norm_num at h1 h2 hd hstep ⊢
  linarith

/-! The claim theorems about the grid generator. -/

/-- C3: `generate_heatmap_data` is total: every matrix entry comes from
the total per-cell computation `cellPair`; a nonpositive spot or
volatility is intercepted by the guard and replaced by the guard
fallback, and a pricer `InvalidInput` error on an unguarded cell is
caught and replaced by the intrinsic-value fallback, so no error crosses
the engine boundary from the grid path. -/
theorem heatmap_never_fails (base : CalculationRequest) (sr vr : ℝ × ℝ) (n : ℕ) :
    (generate_heatmap_data base sr vr n).call_prices =
      (gridSpots sr n).map (fun s => (gridVols vr n).map
        (fun v => (cellPair base.strike_price base.time_to_maturity
          base.risk_free_rate base.dividend_yield s v).1)) ∧
    (generate_heatmap_data base sr vr n).put_prices =
      (gridSpots sr n).map (fun s => (gridVols vr n).map
        (fun v => (cellPair base.strike_price base.time_to_maturity
          base.risk_free_rate base.dividend_yield s v).2)) ∧
    (∀ s v : ℝ, s ≤ 0 ∨ v ≤ 0 →
      cellPair base.strike_price base.time_to_maturity base.risk_free_rate
        base.dividend_yield s v =
        (0, max 0 (base.strike_price *
          Real.exp (-base.risk_free_rate * base.time_to_maturity) - s))) ∧
    (∀ s v : ℝ, ∀ msg : String,
      calculate_option_prices s base.strike_price base.time_to_maturity v
        base.risk_free_rate base.dividend_yield = Except.error msg →
      ¬(s ≤ 0 ∨ v ≤ 0) →
      cellPair base.strike_price base.time_to_maturity base.risk_free_rate
        base.dividend_yield s v =
        (max 0 (s - base.strike_price), max 0 (base.strike_price - s))) := by
  refine ⟨rfl, rfl, ?_, ?_⟩
  · intro s v hsv
    unfold cellPair
    rw [if_pos hsv]
  · intro s v msg herr hguard
    unfold cellPair
    rw [if_neg hguard, herr]

/-- C5: after sorting, a degenerate spot range widens to
[max(0.1, 0.9 s), 1.1 s] and a degenerate volatility range widens to
[max(0.01, 0.5 v), min(2, 1.5 v)]; the axes are `grid_size` evenly
spaced points including both endpoints; and a request with
spot_min = spot_max = 100 yields spot values spanning [90, 110] after
2-decimal rounding. -/
theorem widening_and_axes (s v a b : ℝ) (n : ℕ) (base : CalculationRequest)
    (vr : ℝ × ℝ) (hn : 2 ≤ n) :
    widenSpot (s, s) = (max 0.1 (s * 0.9), s * 1.1) ∧
    widenVol (v, v) = (max 0.01 (v * 0.5), min 2.0 (v * 1.5)) ∧
    (linspace a b n).length = n ∧
    (∀ i : ℕ, i < n → (linspace a b n).getD i 0 = a + i * (b - a) / ((n : ℝ) - 1)) ∧
    (linspace a b n).getD 0 0 = a ∧
    (linspace a b n).getD (n - 1) 0 = b ∧
    (generate_heatmap_data base (100, 100) vr n).spot_values =
      (linspace 90 110 n).map (fun x => pyRound 2 x) ∧
    (generate_heatmap_data base (100, 100) vr n).spot_values.getD 0 0 = 90 ∧
    (generate_heatmap_data base (100, 100) vr n).spot_values.getD (n - 1) 0 = 110 := by
  have hne : (n : ℝ) - 1 ≠ 0 := by
    have h2 : (2 : ℝ) ≤ (n : ℝ) := by exact_mod_cast hn
    linarith
  have hcast : ((n - 1 : ℕ) : ℝ) = (n : ℝ) - 1 := by
    rw [Nat.cast_sub (by omega : 1 ≤ n)]
    norm_num
  have hgrid : gridSpots ((100 : ℝ), (100 : ℝ)) n = linspace 90 110 n := by
    have hsort : sortPair ((100 : ℝ), (100 : ℝ)) = (100, 100) := by
      rw [sortPair, min_self, max_self]
    have hwiden : widenSpot ((100 : ℝ), (100 : ℝ)) = (90, 110) := by
      rw [widenSpot, if_pos rfl,
        show max (0.1 : ℝ) (100 * 0.9) = 90 from by rw [max_eq_right] <;> norm_num]
      norm_num
    rw [gridSpots, hsort, hwiden]
  have hsv : (generate_heatmap_data base (100, 100) vr n).spot_values =
      (linspace 90 110 n).map (fun x => pyRound 2 x) := by
    simp only [generate_heatmap_data]
    rw [hgrid]
  refine ⟨?_, ?_, linspace_length a b n, ?_, ?_, ?_, hsv, ?_, ?_⟩
  · rw [widenSpot, if_pos rfl]
  · rw [widenVol, if_pos rfl]
  · intro i hi
    exact linspace_getD hi 0
  · rw [linspace_getD (by omega : 0 < n)]
    norm_num
  · rw [linspace_getD (by omega : n - 1 < n), hcast]
    field_simp
  · rw [hsv, getD_map_of_lt _ _ _ _ 0 (by rw [linspace_length]; omega),
      linspace_getD (by omega : 0 < n)]
    have e0 : (90 : ℝ) + (0 : ℕ) * (110 - 90) / ((n : ℝ) - 1) = 90 := by norm_num
    rw [e0, show pyRound 2 (90 : ℝ) = ((9000 : ℤ) : ℝ) / 10 ^ 2 from
      pyRound_eq (by push_cast; norm_num) (by push_cast; norm_num)]
    norm_num
  · rw [hsv, getD_map_of_lt _ _ _ _ 0 (by rw [linspace_length]; omega),
      linspace_getD (by omega : n - 1 < n), hcast]
    have elast : (90 : ℝ) + ((n : ℝ) - 1) * (110 - 90) / ((n : ℝ) - 1) = 110 := by
      field_simp
    rw [elast, show pyRound 2 (110 : ℝ) = ((11000 : ℤ) : ℝ) / 10 ^ 2 from
      pyRound_eq (by push_cast; norm_num) (by push_cast; norm_num)]
    norm_num

/-- Witness for C5 at a concrete request. -/
theorem widening_and_axes_witness :
    widenSpot ((7 : ℝ), 7) = (max 0.1 (7 * 0.9), 7 * 1.1) ∧
    widenVol ((0.3 : ℝ), 0.3) = (max 0.01 (0.3 * 0.5), min 2.0 (0.3 * 1.5)) ∧
    (linspace (0 : ℝ) 1 5).length = 5 ∧
    (∀ i : ℕ, i < 5 → (linspace (0 : ℝ) 1 5).getD i 0 =
      0 + i * (1 - 0) / (((5 : ℕ) : ℝ) - 1)) ∧
    (linspace (0 : ℝ) 1 5).getD 0 0 = 0 ∧
    (linspace (0 : ℝ) 1 5).getD (5 - 1) 0 = 1 ∧
    (generate_heatmap_data ⟨100, 100, 1, 0.2, 0.05, 0⟩ (100, 100) (0.1, 0.5) 5).spot_values =
      (linspace 90 110 5).map (fun x => pyRound 2 x) ∧
    (generate_heatmap_data ⟨100, 100, 1, 0.2, 0.05, 0⟩ (100, 100) (0.1, 0.5) 5).spot_values.getD 0 0 = 90 ∧
    (generate_heatmap_data ⟨100, 100, 1, 0.2, 0.05, 0⟩ (100, 100) (0.1, 0.5) 5).spot_values.getD (5 - 1) 0 = 110 :=
  widening_and_axes 7 0.3 0 1 5 ⟨100, 100, 1, 0.2, 0.05, 0⟩ (0.1, 0.5) (by norm_num)

/-- C6 (amended): for every request the returned matrices are n-by-n and
the axes have n entries, unconditionally; the rounded axes are strictly
increasing whenever the axis step after sorting and widening exceeds one
hundredth. -/
theorem grid_shape_axes (base : CalculationRequest) (sr vr : ℝ × ℝ) (n : ℕ) :
    (generate_heatmap_data base sr vr n).call_prices.length = n ∧
    (∀ row ∈ (generate_heatmap_data base sr vr n).call_prices, row.length = n) ∧
    (generate_heatmap_data base sr vr n).put_prices.length = n ∧
    (∀ row ∈ (generate_heatmap_data base sr vr n).put_prices, row.length = n) ∧
    (generate_heatmap_data base sr vr n).spot_values.length = n ∧
    (generate_heatmap_data base sr vr n).volatility_values.length = n ∧
    (2 ≤ n → 1 / 100 <
        ((widenSpot (sortPair sr)).2 - (widenSpot (sortPair sr)).1) / ((n : ℝ) - 1) →
      List.Chain' (fun x y : ℝ => x < y) (generate_heatmap_data base sr vr n).spot_values) ∧
    (2 ≤ n → 1 / 100 <
        ((widenVol (sortPair vr)).2 - (widenVol (sortPair vr)).1) / ((n : ℝ) - 1) →
      List.Chain' (fun x y : ℝ => x < y)
        (generate_heatmap_data base sr vr n).volatility_values) := by
  refine ⟨?_, ?_, ?_, ?_, ?_, ?_, ?_, ?_⟩
  · simp only [generate_heatmap_data, List.length_map]
    exact gridSpots_length sr n
  · intro row hrow
    simp only [generate_heatmap_data] at hrow
    obtain ⟨x, hx, rfl⟩ := List.mem_map.mp hrow
    simp only [List.length_map]
    exact gridVols_length vr n
  · simp only [generate_heatmap_data, List.length_map]
    exact gridSpots_length sr n
  · intro row hrow
    simp only [generate_heatmap_data] at hrow
    obtain ⟨x, hx, rfl⟩ := List.mem_map.mp hrow
    simp only [List.length_map]
    exact gridVols_length vr n
  · simp only [generate_heatmap_data, List.length_map]
    exact gridSpots_length sr n
  · simp only [generate_heatmap_data, List.length_map]
    exact gridVols_length vr n
  · intro hn hs
    simp only [generate_heatmap_data]
    rw [gridSpots]
    exact chain_lt_map_linspace hn hs
  · intro hn hv
    simp only [generate_heatmap_data]
    rw [gridVols]
    exact chain_lt_map_linspace hn hv

/-- Counterexample to C6 as stated: a degenerate volatility range at the
widening clamp, vol_min = vol_max = 4, is widened to [2, 2] and produces
a constant, not strictly increasing, volatility axis. -/
theorem grid_axes_strict_cex :
    (generate_heatmap_data ⟨100, 100, 1, 0.2, 0.05, 0⟩ (90, 110) (4, 4) 5).volatility_values =
      [2, 2, 2, 2, 2] ∧
    ¬ List.Chain' (fun x y : ℝ => x < y)
      (generate_heatmap_data ⟨100, 100, 1, 0.2, 0.05, 0⟩ (90, 110) (4, 4) 5).volatility_values := by
  have hax : gridVols ((4 : ℝ), 4) 5 = [2, 2, 2, 2, 2] := by
    have h1 : sortPair ((4 : ℝ), 4) = (4, 4) := by rw [sortPair, min_self, max_self]
    have h2 : widenVol ((4 : ℝ), 4) = (2, 2) := by
      rw [widenVol, if_pos rfl,
        show max (0.01 : ℝ) (4 * 0.5) = 2 from by rw [max_eq_right] <;> norm_num,
        show min (2.0 : ℝ) (4 * 1.5) = 2 from by rw [min_eq_left] <;> norm_num]
    rw [gridVols, h1, h2, linspace]
    norm_num [List.range_succ]
  have hval : (generate_heatmap_data ⟨100, 100, 1, 0.2, 0.05, 0⟩ (90, 110) (4, 4) 5).volatility_values =
      [2, 2, 2, 2, 2] := by
    simp only [generate_heatmap_data]
    rw [hax]
    have h2 : pyRound 2 (2 : ℝ) = 2 := by
      rw [show pyRound 2 (2 : ℝ) = ((200 : ℤ) : ℝ) / 10 ^ 2 from
        pyRound_eq (by push_cast; norm_num) (by push_cast; norm_num)]
      norm_num
    simp [h2]
  refine ⟨hval, ?_⟩
  intro hch
  rw [hval] at hch
  exact absurd (List.chain'_cons.mp hch).1 (lt_irrefl 2)

/-- C4 (amended): a grid cell at which the pricer fails with
`InvalidInput` holds exactly max(0, spot - K) on the call side and
max(0, K - spot) on the put side, with no additional rounding applied to
these fallback values. -/
theorem fallback_cells_unrounded (base : CalculationRequest) (sr vr : ℝ × ℝ)
    (n i j : ℕ) (hi : i < n) (hj : j < n)
    (hs : 0 < (gridSpots sr n).getD i 0) (hv : 0 < (gridVols vr n).getD j 0)
    (hfail : ∃ msg, calculate_option_prices ((gridSpots sr n).getD i 0)
      base.strike_price base.time_to_maturity ((gridVols vr n).getD j 0)
      base.risk_free_rate base.dividend_yield = Except.error msg) :
    ((generate_heatmap_data base sr vr n).call_prices.getD i []).getD j 0 =
      max 0 ((gridSpots sr n).getD i 0 - base.strike_price) ∧
    ((generate_heatmap_data base sr vr n).put_prices.getD i []).getD j 0 =
      max 0 (base.strike_price - (gridSpots sr n).getD i 0) := by
  obtain ⟨msg, hmsg⟩ := hfail
  rw [grid_call_cell base sr vr n i j hi hj, grid_put_cell base sr vr n i j hi hj]
  unfold cellPair
  rw [if_neg (by push_neg; exact ⟨hs, hv⟩), hmsg]
  exact ⟨rfl, rfl⟩

lemma cex_spot : (gridSpots ((1 : ℝ), 2) 5).getD 1 0 = 1.25 := by
  have h1 : sortPair ((1 : ℝ), 2) = (1, 2) := by
    rw [sortPair, min_eq_left (by norm_num : (1 : ℝ) ≤ 2),
      max_eq_right (by norm_num : (1 : ℝ) ≤ 2)]
  have h2 : widenSpot ((1 : ℝ), 2) = (1, 2) := by
    rw [widenSpot, if_neg (by norm_num : ¬((1 : ℝ), (2 : ℝ)).1 = ((1 : ℝ), (2 : ℝ)).2)]
  rw [gridSpots, h1, h2, linspace_getD (by norm_num : 1 < 5)]
  norm_num

lemma cex_vol : (gridVols ((0.2 : ℝ), 0.2) 5).getD 0 0 = 0.1 := by
  have h1 : sortPair ((0.2 : ℝ), 0.2) = (0.2, 0.2) := by
    rw [sortPair, min_self, max_self]
  have h2 : widenVol ((0.2 : ℝ), 0.2) = (0.1, 0.3) := by
    rw [widenVol, if_pos rfl,
      show max (0.01 : ℝ) (0.2 * 0.5) = 0.1 from by rw [max_eq_right] <;> norm_num,
      show min (2.0 : ℝ) (0.2 * 1.5) = 0.3 from by rw [min_eq_right] <;> norm_num]
  rw [gridVols, h1, h2, linspace_getD (by norm_num : 0 < 5)]
  norm_num

lemma cex_fail : calculate_option_prices (1.25 : ℝ) (1 / 3) 1 (0.1 : ℝ) 2 0 =
    Except.error "risk_free_rate and dividend_yield must be between 0 and 1" := by
  unfold calculate_option_prices
  rw [if_neg (by push_neg; norm_num), if_pos (Or.inl (by norm_num))]

/-- Counterexample to C4 as stated: at a failing cell with spot 1.25 and
strike 1/3 the stored call value is the exact intrinsic value 11/12,
which differs from its 2-decimal rounding 0.92. -/
theorem fallback_rounding_cex :
    (∃ msg, calculate_option_prices (1.25 : ℝ) (1 / 3) 1 (0.1 : ℝ) 2 0 = Except.error msg) ∧
    ((generate_heatmap_data ⟨1, 1 / 3, 1, 1, 2, 0⟩ (1, 2) (0.2, 0.2) 5).call_prices.getD 1 []).getD 0 0 =
      max 0 ((1.25 : ℝ) - 1 / 3) ∧
    ¬ ((generate_heatmap_data ⟨1, 1 / 3, 1, 1, 2, 0⟩ (1, 2) (0.2, 0.2) 5).call_prices.getD 1 []).getD 0 0 =
      pyRound 2 (max 0 ((1.25 : ℝ) - 1 / 3)) := by
  have hcell : ((generate_heatmap_data ⟨1, 1 / 3, 1, 1, 2, 0⟩ (1, 2) (0.2, 0.2) 5).call_prices.getD 1 []).getD 0 0 =
      max 0 ((1.25 : ℝ) - 1 / 3) := by
    have h := grid_call_cell ⟨1, 1 / 3, 1, 1, 2, 0⟩ (1, 2) (0.2, 0.2) 5 1 0
      (by norm_num) (by norm_num)
    rw [h]
    show (cellPair (1 / 3) 1 2 0 ((gridSpots ((1 : ℝ), 2) 5).getD 1 0)
      ((gridVols ((0.2 : ℝ), 0.2) 5).getD 0 0)).1 = _
    rw [cex_spot, cex_vol]
    unfold cellPair
    rw [if_neg (by push_neg; norm_num), cex_fail]
  have hmax : max 0 ((1.25 : ℝ) - 1 / 3) = 11 / 12 := by
    rw [max_eq_right (by norm_num : (0 : ℝ) ≤ 1.25 - 1 / 3)]
    norm_num
  refine ⟨⟨_, cex_fail⟩, hcell, ?_⟩
  rw [hcell, hmax,
    show pyRound 2 ((11 : ℝ) / 12) = ((92 : ℤ) : ℝ) / 10 ^ 2 from
      pyRound_eq (by push_cast; norm_num) (by push_cast; norm_num)]
  norm_num

/-- Witness for the amended C4 at the concrete failing cell. -/
theorem fallback_cells_unrounded_witness :
    ((generate_heatmap_data ⟨1, 1 / 3, 1, 1, 2, 0⟩ (1, 2) (0.2, 0.2) 5).call_prices.getD 1 []).getD 0 0 =
      max 0 ((gridSpots ((1 : ℝ), 2) 5).getD 1 0 - (1 / 3 : ℝ)) ∧
    ((generate_heatmap_data ⟨1, 1 / 3, 1, 1, 2, 0⟩ (1, 2) (0.2, 0.2) 5).put_prices.getD 1 []).getD 0 0 =
      max 0 ((1 / 3 : ℝ) - (gridSpots ((1 : ℝ), 2) 5).getD 1 0) :=
  fallback_cells_unrounded ⟨1, 1 / 3, 1, 1, 2, 0⟩ (1, 2) (0.2, 0.2) 5 1 0
    (by norm_num) (by norm_num)
    (by rw [cex_spot]; norm_num)
    (by rw [cex_vol]; norm_num)
    ⟨_, by rw [cex_spot, cex_vol]; exact cex_fail⟩

/-- C10: every cell of both returned matrices is nonnegative, whether it
came from the guard, from a successful pricer call, or from the
intrinsic-value fallback. -/
theorem grid_cells_nonneg (base : CalculationRequest) (sr vr : ℝ × ℝ) (n i j : ℕ) :
    0 ≤ ((generate_heatmap_data base sr vr n).call_prices.getD i []).getD j 0 ∧
    0 ≤ ((generate_heatmap_data base sr vr n).put_prices.getD i []).getD j 0 := by
  by_cases hi : i < n
  · by_cases hj : j < n
    · rw [grid_call_cell base sr vr n i j hi hj, grid_put_cell base sr vr n i j hi hj]
      exact cellPair_nonneg _ _ _ _ _ _
    · have hrowc : ((generate_heatmap_data base sr vr n).call_prices.getD i []).length = n := by
        simp only [generate_heatmap_data]
        have hls : i < (gridSpots sr n).length := by rw [gridSpots_length]; exact hi
        have hlen : i < ((gridSpots sr n).map (fun s => (gridVols vr n).map
            (fun v => (cellPair base.strike_price base.time_to_maturity base.risk_free_rate
              base.dividend_yield s v).1))).length := by simpa using hls
        rw [List.getD_eq_getElem _ _ hlen, List.getElem_map]
        simp [gridVols_length]
      have hrowp : ((generate_heatmap_data base sr vr n).put_prices.getD i []).length = n := by
        simp only [generate_heatmap_data]
        have hls : i < (gridSpots sr n).length := by rw [gridSpots_length]; exact hi
        have hlen : i < ((gridSpots sr n).map (fun s => (gridVols vr n).map
            (fun v => (cellPair base.strike_price base.time_to_maturity base.risk_free_rate
              base.dividend_yield s v).2))).length := by simpa using hls
        rw [List.getD_eq_getElem _ _ hlen, List.getElem_map]
        simp [gridVols_length]
      rw [List.getD_eq_default _ _ (by rw [hrowc]; omega),
        List.getD_eq_default _ _ (by rw [hrowp]; omega)]
      exact ⟨le_refl 0, le_refl 0⟩
  · have hc : (generate_heatmap_data base sr vr n).call_prices.getD i [] = [] := by
      refine List.getD_eq_default _ _ ?_
      simp only [generate_heatmap_data]
      simp [gridSpots_length]
      omega
    have hp : (generate_heatmap_data base sr vr n).put_prices.getD i [] = [] := by
      refine List.getD_eq_default _ _ ?_
      simp only [generate_heatmap_data]
      simp [gridSpots_length]
      omega
    rw [hc, hp]
    simp

end BlackScholes
